import Mathlib

/-!
# Verification of the `zip_folder` archive-and-verify tool

Shallow embedding of `src/zip_folder.py` (an uncompressed zip archiver that
records per-file SHA-256 digests in a side manifest and later verifies the
archive against that manifest), together with proofs about the embedded
program.

Modelling conventions:

* bytes are `Nat`s below 256; file contents are `List Nat`;
* Python strings are modelled as `List Char` (`Str` below); concrete string
  literals in theorem statements are written via `String.data`;
* the filesystem side effects of the program are made explicit: a source tree
  is a list of `SrcFile` records in traversal order, the produced zip
  container is a list of named entries, and the written hash-log file is the
  `Str` of its contents;
* `hashlib.sha256` is implemented for real (SHA-256 over byte lists, with
  32-bit words as `Nat % 2^32`); feeding chunks to the running hash state is
  modelled by hashing the concatenation of the chunks, which is exactly the
  incremental-update semantics of `hashlib`.
-/

/-- Python string model: a list of characters. -/
abbrev Str := List Char

/-! ## SHA-256 (the `hashlib.sha256` used by `compute_file_hash`) -/

namespace SHA256

/-- Truncation to a 32-bit word. -/
def w32 (n : Nat) : Nat := n % 4294967296

/-- Rotate a 32-bit word right by `n` bits. -/
def rotr (x n : Nat) : Nat := w32 ((x >>> n) ||| (x <<< (32 - n)))

def ch (x y z : Nat) : Nat := (x &&& y) ^^^ ((x ^^^ 4294967295) &&& z)

def maj (x y z : Nat) : Nat := (x &&& y) ^^^ (x &&& z) ^^^ (y &&& z)

def bigSigma0 (x : Nat) : Nat := rotr x 2 ^^^ rotr x 13 ^^^ rotr x 22

def bigSigma1 (x : Nat) : Nat := rotr x 6 ^^^ rotr x 11 ^^^ rotr x 25

def smallSigma0 (x : Nat) : Nat := rotr x 7 ^^^ rotr x 18 ^^^ (x >>> 3)

def smallSigma1 (x : Nat) : Nat := rotr x 17 ^^^ rotr x 19 ^^^ (x >>> 10)

/-- Round constants of SHA-256 (FIPS 180-4), written in decimal. -/
def K : List Nat :=
  [1116352408, 1899447441, 3049323471, 3921009573, 961987163,
   1508970993, 2453635748, 2870763221, 3624381080, 310598401,
   607225278, 1426881987, 1925078388, 2162078206, 2614888103,
   3248222580, 3835390401, 4022224774, 264347078, 604807628,
   770255983, 1249150122, 1555081692, 1996064986, 2554220882,
   2821834349, 2952996808, 3210313671, 3336571891, 3584528711,
   113926993, 338241895, 666307205, 773529912, 1294757372,
   1396182291, 1695183700, 1986661051, 2177026350, 2456956037,
   2730485921, 2820302411, 3259730800, 3345764771, 3516065817,
   3600352804, 4094571909, 275423344, 430227734, 506948616,
   659060556, 883997877, 958139571, 1322822218, 1537002063,
   1747873779, 1955562222, 2024104815, 2227730452, 2361852424,
   2428436474, 2756734187, 3204031479, 3329325298]

/-- Starting hash state of SHA-256, written in decimal. -/
def H0 : List Nat :=
  [1779033703, 3144134277, 1013904242, 2773480762,
   1359893119, 2600822924, 528734635, 1541459225]

/-- Big-endian serialization of `n` into `numBytes` bytes. -/
def toBytesBE (numBytes n : Nat) : List Nat :=
  (List.range numBytes).map (fun i => (n >>> (8 * (numBytes - 1 - i))) % 256)

/-- Big-endian word from a list of bytes. -/
def bytesToWordBE (bs : List Nat) : Nat := bs.foldl (fun acc b => acc * 256 + b) 0

/-- Pad a message to a multiple of 64 bytes as SHA-256 prescribes:
`0x80`, zero bytes, then the 64-bit big-endian bit length. -/
def padMessage (m : List Nat) : List Nat :=
  let L := m.length
  let k := (119 - L % 64) % 64
  m ++ [0x80] ++ List.replicate k 0 ++ toBytesBE 8 (8 * L)

/-- Extend a 16-word block to the 64-word message schedule by appending
`n` further words. -/
def scheduleAux : Nat → List Nat → List Nat
  | 0, ws => ws
  | n + 1, ws =>
      let len := ws.length
      let w := w32 (smallSigma1 (ws.getD (len - 2) 0) + ws.getD (len - 7) 0 +
        smallSigma0 (ws.getD (len - 15) 0) + ws.getD (len - 16) 0)
      scheduleAux n (ws ++ [w])

def schedule (ws : List Nat) : List Nat := scheduleAux 48 ws

/-- One round of the compression function on the 8-word working state. -/
def compressStep (st : List Nat) (wk : Nat × Nat) : List Nat :=
  let a := st.getD 0 0
  let b := st.getD 1 0
  let c := st.getD 2 0
  let d := st.getD 3 0
  let e := st.getD 4 0
  let f := st.getD 5 0
  let g := st.getD 6 0
  let h := st.getD 7 0
  let t1 := w32 (h + bigSigma1 e + ch e f g + wk.2 + wk.1)
  let t2 := w32 (bigSigma0 a + maj a b c)
  [w32 (t1 + t2), a, b, c, w32 (d + t1), e, f, g]

end SHA256

/-- Chunk-splitting loop with an explicit structural bound on the number of
iterations; each iteration with a positive chunk size consumes at least one
byte, so a bound of the content's length is always enough. -/
def readChunksAux (chunkSize : Nat) : Nat → List Nat → List (List Nat)
  | 0, _ => []
  | _, [] => []
  | fuel + 1, x :: rest =>
      if chunkSize = 0 then []
      else
        ((x :: rest).take chunkSize) :: readChunksAux chunkSize fuel ((x :: rest).drop chunkSize)

/-- Split a byte list into successive chunks of at most `chunkSize` bytes.
This is exactly the read loop `iter(lambda: f.read(chunk_size), b'')` of
`compute_file_hash`: when `chunkSize = 0` the first read returns `b''` and
the loop body never runs, so no chunks are produced. -/
def readChunks (chunkSize : Nat) (content : List Nat) : List (List Nat) :=
  readChunksAux chunkSize content.length content

namespace SHA256

/-- Process one 64-byte block, updating the 8-word hash state. -/
def processBlock (hstate : List Nat) (block : List Nat) : List Nat :=
  let ws := schedule ((readChunks 4 block).map bytesToWordBE)
  let st := (ws.zip K).foldl compressStep hstate
  (hstate.zip st).map (fun p => w32 (p.1 + p.2))

/-- SHA-256 digest (32 bytes) of a byte list. -/
def sha256 (m : List Nat) : List Nat :=
  let final := (readChunks 64 (padMessage m)).foldl processBlock H0
  (final.map (toBytesBE 4)).flatten

/-- The sixteen lowercase hex digits. -/
def hexDigits : Str := "0123456789abcdef".data

def hexDigit (n : Nat) : Char := hexDigits.getD n 'x'

def byteToHex (b : Nat) : Str := [hexDigit (b / 16), hexDigit (b % 16)]

/-- `hexdigest()`: the digest as a lowercase hexadecimal string. -/
def sha256hex (m : List Nat) : Str := ((sha256 m).map byteToHex).flatten

end SHA256

/-! ## Python string helpers used by the program -/

/-- Python whitespace for `str.strip()` (ASCII part, which is all the
program ever produces). -/
def isPySpace (c : Char) : Bool :=
  c = ' ' || c = '\t' || c = '\n' || c = '\x0d' || c = '\x0b' || c = '\x0c'

/-- `s.strip()`: drop whitespace from both ends. -/
def stripChars (s : Str) : Str :=
  ((s.dropWhile isPySpace).reverse.dropWhile isPySpace).reverse

/-- `s.split(sep)` for a one-character separator: split on EVERY occurrence
(Python's `str.split` with an argument has no maxsplit here). -/
def splitOnChar (sep : Char) : Str → List Str
  | [] => [[]]
  | c :: rest =>
      let r := splitOnChar sep rest
      if c = sep then [] :: r
      else
        match r with
        | [] => [[c]]
        | x :: xs => (c :: x) :: xs

/-- Iterating over the lines of an open text file (`for line in f`), after
stripping: Python yields each newline-terminated piece and a final piece
only when the file does not end in a newline. -/
def fileLines (text : Str) : List Str :=
  let ps := splitOnChar '\n' text
  if ps.getLast? = some [] then ps.dropLast else ps

/-- Python-dict insertion into an insertion-ordered association list:
an existing key is updated in place, a new key is appended. -/
def dictInsert (k : Str) (v : α) : List (Str × α) → List (Str × α)
  | [] => [(k, v)]
  | (k', v') :: rest => if k' = k then (k, v) :: rest else (k', v') :: dictInsert k v rest

/-! ## The embedded program (`src/zip_folder.py`) -/

/-- `CHUNK_SIZE = 64 * 1024 * 1024`. -/
def CHUNK_SIZE : Nat := 64 * 1024 * 1024

/-- `compute_file_hash`: the argument is `some content` for a readable file
and `none` for a file whose open/read raises `IOError`/`OSError` (the
function then returns `None`).  For a readable file the read loop produces
`readChunks chunkSize content` and each chunk is folded into the running
`hashlib.sha256` state, which hashes their concatenation.  The Python
parameter defaults to `CHUNK_SIZE`; callers inside the program pass it
explicitly here. -/
def compute_file_hash (file : Option (List Nat)) (chunkSize : Nat) : Option Str :=
  file.map (fun content => SHA256.sha256hex (readChunks chunkSize content).flatten)

/-- `normalize_path`: `path.replace('\\', '/')`. -/
def normalize_path (path : Str) : Str :=
  path.map (fun c => if c = '\\' then '/' else c)

/-- One regular file met by `os.walk`, in traversal order.  `content` is
`none` when reading the file fails (so `compute_file_hash` returns `None`);
`writeOk` is `false` when `zipf.write` raises an `IOError`/`OSError` for
this file (before any bytes of the entry are written). -/
structure SrcFile where
  relPath : Str
  content : Option (List Nat)
  writeOk : Bool
deriving DecidableEq, Repr

/-- The observable result of `zip_folder`: the zip container's entries in
the order written (duplicate names allowed, as in the zip format), the
`file_hashes` dict, the returned success flag, and the text written to the
hash-log file. -/
structure ZipResult where
  entries : List (Str × List Nat)
  file_hashes : List (Str × Str)
  success : Bool
  hashLog : Str
deriving DecidableEq, Repr

/-- The manifest text written by `zip_folder`:
`f.write(f"{file_path}:{file_hash}\n")` per dict item. -/
def manifestText (hashes : List (Str × Str)) : Str :=
  (hashes.map (fun p => p.1 ++ ':' :: p.2 ++ ['\n'])).flatten

/-- The per-file body of `zip_folder`'s loop. -/
def zipStep (st : List (Str × List Nat) × List (Str × Str) × Bool) (f : SrcFile) :
    List (Str × List Nat) × List (Str × Str) × Bool :=
  let zipPath := normalize_path f.relPath
  match compute_file_hash f.content CHUNK_SIZE with
  | none => (st.1, st.2.1, false)
  | some h =>
      let hashes := dictInsert zipPath h st.2.1
      if f.writeOk then (st.1 ++ [(zipPath, f.content.getD [])], hashes, st.2.2)
      else (st.1, hashes, false)

/-- `zip_folder` on the happy container path (the zip file opens and the
hash log is writable; per-file failures are the `SrcFile` fields): walk the
files, then write the manifest, and return `(success, file_hashes)`. -/
def zip_folder (files : List SrcFile) : ZipResult :=
  let st := files.foldl zipStep ([], [], true)
  ⟨st.1, st.2.1, st.2.2, manifestText st.2.1⟩

/-- `line.strip().split(':')` unpacked into exactly two names: any other
number of parts raises `ValueError`, which the surrounding `except` turns
into a verification failure. -/
def parseLine (line : Str) : Option (Str × Str) :=
  match splitOnChar ':' (stripChars line) with
  | [p, h] => some (p, h)
  | _ => none

/-- The manifest-reading loop body over the file's lines, in order; the
first malformed line raises `ValueError`, aborting the whole read. -/
def parseLines : List Str → Option (List (Str × Str))
  | [] => some []
  | l :: ls =>
      match parseLine l, parseLines ls with
      | some p, some ps => some (p :: ps)
      | _, _ => none

/-- Reading `original_hashes` from the hash log: parse every line and build
the dict; `none` models the exception path. -/
def parseManifest (text : Str) : Option (List (Str × Str)) :=
  (parseLines (fileLines text)).map
    (fun ps => ps.foldl (fun acc p => dictInsert p.1 p.2 acc) [])

/-- `zipf.extract` materializes the entry stored under `name`; the zip
name index (`NameToInfo`) maps a duplicated name to its last occurrence.
`none` models the `KeyError` when the name is absent. -/
def zipLookup (entries : List (Str × List Nat)) (name : Str) : Option (List Nat) :=
  entries.foldl (fun acc e => if e.1 = name then some e.2 else acc) none

/-- `verify_integrity` on a container with the given entries and a hash log
with the given text (scratch-directory I/O assumed healthy: an extracted
entry re-reads with exactly the stored bytes). -/
def verify_integrity (entries : List (Str × List Nat)) (hashLogText : Str) : Bool :=
  match parseManifest hashLogText with
  | none => false
  | some original =>
      original.all (fun ph =>
        match zipLookup entries ph.1 with
        | none => false
        | some c =>
            match compute_file_hash (some c) CHUNK_SIZE with
            | none => false
            | some eh => eh = ph.2)

/-- Observable outcome of `main`. -/
structure MainResult where
  exitCode : Nat
  containerCreated : Bool
  manifestCreated : Bool
deriving DecidableEq, Repr

/-- `main` after argument parsing (Lean reserves the name `main`, hence
`mainProgram`): the source-directory check runs before any archiving work,
and `zip_folder` (which creates the container and then the manifest) runs
only when the check passes. -/
def mainProgram (sourceExists sourceIsDir : Bool) (files : List SrcFile)
    (verifyFlag : Bool) : MainResult :=
  if !(sourceExists && sourceIsDir) then ⟨1, false, false⟩
  else
    let r := zip_folder files
    if !r.success then ⟨1, true, true⟩
    else if verifyFlag then
      if verify_integrity r.entries r.hashLog then ⟨0, true, true⟩ else ⟨1, true, true⟩
    else ⟨0, true, true⟩

/-! ## Derived notions used in the statements -/

/-- Interleave a separator character between string pieces (the inverse
shape of `splitOnChar`). -/
def joinSep (sep : Char) : List Str → Str
  | [] => []
  | [x] => x
  | x :: y :: xs => x ++ sep :: joinSep sep (y :: xs)

/-- A portable path that survives the manifest round trip: no colon (the
manifest separator), no newline (the line separator), and no leading
whitespace (which `strip()` would eat). -/
def pathSafe (p : Str) : Prop :=
  ':' ∉ p ∧ '\n' ∉ p ∧ p.dropWhile isPySpace = p

instance (p : Str) : Decidable (pathSafe p) := by
  unfold pathSafe
  infer_instance

/-- Per-file processing succeeds: the digest is computable and the
container write does not raise. -/
def fileOk (f : SrcFile) : Bool := f.content.isSome && f.writeOk

/-- The container entry a file contributes, if any. -/
def entryOf (f : SrcFile) : Option (Str × List Nat) :=
  f.content.bind (fun c => if f.writeOk then some (normalize_path f.relPath, c) else none)

/-- The manifest entry a file contributes, if any (note: also when the
container write fails). -/
def hashOf (f : SrcFile) : Option (Str × Str) :=
  f.content.map (fun c => (normalize_path f.relPath, SHA256.sha256hex c))

/-! ## Chunked reading is observationally transparent -/

/-- The chunks read with any positive chunk size concatenate back to the
whole content. -/
theorem readChunksAux_flatten (chunkSize : Nat) (hk : chunkSize ≠ 0) :
    ∀ (fuel : Nat) (c : List Nat), c.length ≤ fuel →
      (readChunksAux chunkSize fuel c).flatten = c := by
  intro fuel
  induction fuel with
  | zero =>
      intro c hc
      rw [Nat.le_zero, List.length_eq_zero] at hc
      subst hc
      rfl
  | succ n ih =>
      intro c hc
      cases c with
      | nil => rfl
      | cons x rest =>
          rw [readChunksAux]
          simp only [if_neg hk, List.flatten_cons]
          rw [ih ((x :: rest).drop chunkSize) (by
            rw [List.length_drop, List.length_cons]
            rw [List.length_cons] at hc
            omega)]
          exact List.take_append_drop _ _

theorem readChunks_flatten (chunkSize : Nat) (hk : chunkSize ≠ 0) :
    ∀ c : List Nat, (readChunks chunkSize c).flatten = c := by
  intro c
  exact readChunksAux_flatten chunkSize hk c.length c (Nat.le_refl _)

namespace SHA256

theorem length_compressStep (st : List Nat) (wk : Nat × Nat) :
    (compressStep st wk).length = 8 := by
  simp [compressStep]

theorem length_foldl_compressStep (l : List (Nat × Nat)) :
    ∀ st : List Nat, st.length = 8 → (l.foldl compressStep st).length = 8 := by
  induction l with
  | nil => intro st h; simpa using h
  | cons x xs ih =>
      intro st _
      simpa [List.foldl_cons] using ih (compressStep st x) (length_compressStep st x)

theorem length_processBlock (st : List Nat) (b : List Nat) (h : st.length = 8) :
    (processBlock st b).length = 8 := by
  have h2 := length_foldl_compressStep
    ((schedule ((readChunks 4 b).map bytesToWordBE)).zip K) st h
  simp [processBlock, List.length_zip, h, h2]

theorem length_foldl_processBlock (bs : List (List Nat)) :
    ∀ st : List Nat, st.length = 8 → (bs.foldl processBlock st).length = 8 := by
  induction bs with
  | nil => intro st h; simpa using h
  | cons b rest ih =>
      intro st h
      simpa [List.foldl_cons] using ih (processBlock st b) (length_processBlock st b h)

theorem length_toBytesBE (n x : Nat) : (toBytesBE n x).length = n := by
  simp [toBytesBE]

theorem mem_toBytesBE_lt {n x b : Nat} (h : b ∈ toBytesBE n x) : b < 256 := by
  simp only [toBytesBE, List.mem_map, List.mem_range] at h
  obtain ⟨i, -, rfl⟩ := h
  exact Nat.mod_lt _ (by omega)

/-- Flattening a map whose pieces all have length `k` multiplies lengths. -/
theorem length_flatten_map {f : Nat → List Nat} {k : Nat}
    (hf : ∀ a, (f a).length = k) :
    ∀ l : List Nat, ((l.map f).flatten).length = k * l.length := by
  intro l
  induction l with
  | nil => simp
  | cons a t ih => simp [ih, hf a, Nat.mul_succ, Nat.add_comm]

/-- The digest is exactly 32 bytes. -/
theorem length_sha256 (m : List Nat) : (sha256 m).length = 32 := by
  have h8 := length_foldl_processBlock (readChunks 64 (padMessage m)) H0 (by rfl)
  rw [sha256, length_flatten_map (fun x => length_toBytesBE 4 x), h8]

/-- Every byte of the digest is below 256. -/
theorem mem_sha256_lt {m : List Nat} {b : Nat} (h : b ∈ sha256 m) : b < 256 := by
  rw [sha256, List.mem_flatten] at h
  obtain ⟨l, hl, hb⟩ := h
  rw [List.mem_map] at hl
  obtain ⟨w, -, rfl⟩ := hl
  exact mem_toBytesBE_lt hb

theorem hexDigit_mem {n : Nat} (h : n < 16) : hexDigit n ∈ hexDigits := by
  rw [hexDigit, List.getD_eq_getElem?_getD, List.getElem?_eq_getElem (by simpa using h)]
  exact List.getElem_mem _

theorem byteToHex_mem {b : Nat} (hb : b < 256) : ∀ c ∈ byteToHex b, c ∈ hexDigits := by
  intro c hc
  simp only [byteToHex, List.mem_cons, List.not_mem_nil, or_false] at hc
  rcases hc with rfl | rfl
  · exact hexDigit_mem (by omega)
  · exact hexDigit_mem (Nat.mod_lt _ (by omega))

theorem length_byteToHex (b : Nat) : (byteToHex b).length = 2 := rfl

/-- A hexdigest is 64 characters long. -/
theorem length_sha256hex (m : List Nat) : (sha256hex m).length = 64 := by
  have : ∀ l : List Nat, ((l.map byteToHex).flatten).length = 2 * l.length := by
    intro l
    induction l with
    | nil => simp
    | cons a t ih => simp [ih, length_byteToHex, Nat.mul_succ, Nat.add_comm]
  rw [sha256hex, this, length_sha256]

/-- Every character of a hexdigest is a lowercase hex digit. -/
theorem sha256hex_chars {m : List Nat} : ∀ c ∈ sha256hex m, c ∈ hexDigits := by
  intro c hc
  rw [sha256hex, List.mem_flatten] at hc
  obtain ⟨l, hl, hcl⟩ := hc
  rw [List.mem_map] at hl
  obtain ⟨b, hb, rfl⟩ := hl
  exact byteToHex_mem (mem_sha256_lt hb) c hcl

end SHA256

/-- With any positive chunk size, `compute_file_hash` on a readable file is
the hexdigest of the file content itself. -/
theorem compute_file_hash_some {chunkSize : Nat} (hk : chunkSize ≠ 0)
    (content : List Nat) :
    compute_file_hash (some content) chunkSize = some (SHA256.sha256hex content) := by
  simp [compute_file_hash, readChunks_flatten chunkSize hk]

theorem CHUNK_SIZE_ne_zero : CHUNK_SIZE ≠ 0 := by decide

theorem compute_file_hash_default (content : List Nat) :
    compute_file_hash (some content) CHUNK_SIZE = some (SHA256.sha256hex content) :=
  compute_file_hash_some CHUNK_SIZE_ne_zero content

/-! ## `str.split` and `str.strip` lemmas -/

theorem splitOnChar_ne_nil (sep : Char) (s : Str) : splitOnChar sep s ≠ [] := by
  induction s with
  | nil => simp [splitOnChar]
  | cons c rest ih =>
      rw [splitOnChar]
      by_cases h : c = sep
      · simp [h]
      · simp only [if_neg h]
        cases hr : splitOnChar sep rest with
        | nil => simp
        | cons x xs => simp

theorem joinSep_cons_cons (sep c : Char) (x : Str) (xs : List Str) :
    joinSep sep ((c :: x) :: xs) = c :: joinSep sep (x :: xs) := by
  cases xs with
  | nil => rfl
  | cons y ys => simp [joinSep]

/-- Splitting, then rejoining with the separator, restores the string. -/
theorem joinSep_splitOnChar (sep : Char) : ∀ s : Str, joinSep sep (splitOnChar sep s) = s := by
  intro s
  induction s with
  | nil => rfl
  | cons c rest ih =>
      rw [splitOnChar]
      by_cases h : c = sep
      · simp only [if_pos h]
        cases hr : splitOnChar sep rest with
        | nil => exact absurd hr (splitOnChar_ne_nil sep rest)
        | cons y ys =>
            rw [hr] at ih
            simp [joinSep, h, ih]
      · simp only [if_neg h]
        cases hr : splitOnChar sep rest with
        | nil => exact absurd hr (splitOnChar_ne_nil sep rest)
        | cons y ys =>
            rw [hr] at ih
            rw [joinSep_cons_cons, ih]

/-- No piece produced by splitting contains the separator. -/
theorem mem_splitOnChar_not_sep (sep : Char) :
    ∀ (s : Str) (part : Str), part ∈ splitOnChar sep s → sep ∉ part := by
  intro s
  induction s with
  | nil =>
      intro part hp
      simp only [splitOnChar, List.mem_singleton] at hp
      simp [hp]
  | cons c rest ih =>
      intro part hp
      rw [splitOnChar] at hp
      by_cases h : c = sep
      · rw [if_pos h] at hp
        rw [List.mem_cons] at hp
        rcases hp with rfl | hp
        · simp
        · exact ih part hp
      · rw [if_neg h] at hp
        cases hr : splitOnChar sep rest with
        | nil => exact absurd hr (splitOnChar_ne_nil sep rest)
        | cons y ys =>
            rw [hr] at hp
            rw [List.mem_cons] at hp
            rcases hp with rfl | hp
            · intro hs
              rw [List.mem_cons] at hs
              rcases hs with rfl | hs
              · exact h rfl
              · exact ih y (hr ▸ List.mem_cons_self y ys) hs
            · exact ih part (hr ▸ List.mem_cons_of_mem y hp)

theorem splitOnChar_sep_cons (sep : Char) (ys : Str) :
    splitOnChar sep (sep :: ys) = [] :: splitOnChar sep ys := by
  rw [splitOnChar]
  simp

theorem splitOnChar_no_sep {sep : Char} : ∀ {s : Str}, sep ∉ s → splitOnChar sep s = [s] := by
  intro s
  induction s with
  | nil => intro _; rfl
  | cons c rest ih =>
      intro h
      rw [splitOnChar, if_neg (by simp at h; exact fun hc => h.1 hc.symm),
        ih (by simp at h; exact h.2)]

theorem splitOnChar_append_no_sep {sep : Char} {xs : Str} (hsep : sep ∉ xs) :
    ∀ {ys z : Str} {zs : List Str}, splitOnChar sep ys = z :: zs →
      splitOnChar sep (xs ++ ys) = (xs ++ z) :: zs := by
  induction xs with
  | nil => intro ys z zs h; simpa using h
  | cons c xr ih =>
      intro ys z zs h
      simp only [List.mem_cons, not_or] at hsep
      rw [List.cons_append, splitOnChar, if_neg (fun hc => hsep.1 hc.symm),
        ih hsep.2 h]
      simp

/-- Splitting a string built from two separator-free pieces around one
separator gives back exactly those two pieces. -/
theorem splitOnChar_two {sep : Char} {p h : Str} (hp : sep ∉ p) (hh : sep ∉ h) :
    splitOnChar sep (p ++ sep :: h) = [p, h] := by
  have h1 : splitOnChar sep (sep :: h) = [] :: [h] := by
    rw [splitOnChar_sep_cons, splitOnChar_no_sep hh]
  have := splitOnChar_append_no_sep hp h1
  simpa using this

/-- Full characterization: a split has exactly two pieces iff the string is
two separator-free pieces around a single separator. -/
theorem splitOnChar_eq_pair_iff {sep : Char} {s p h : Str} :
    splitOnChar sep s = [p, h] ↔ s = p ++ sep :: h ∧ sep ∉ p ∧ sep ∉ h := by
  constructor
  · intro he
    refine ⟨?_, ?_, ?_⟩
    · have := joinSep_splitOnChar sep s
      rw [he] at this
      simpa [joinSep] using this.symm
    · exact mem_splitOnChar_not_sep sep s p (he ▸ by simp)
    · exact mem_splitOnChar_not_sep sep s h (he ▸ by simp)
  · rintro ⟨rfl, hp, hh⟩
    exact splitOnChar_two hp hh

theorem dropWhile_head_false {P : Char → Bool} :
    ∀ {l : Str}, (∀ c ∈ l.head?, P c = false) → l.dropWhile P = l := by
  intro l h
  cases l with
  | nil => rfl
  | cons c t => simp [List.dropWhile_cons, h c (by simp)]

theorem head_false_of_dropWhile_eq {P : Char → Bool} :
    ∀ {l : Str}, l.dropWhile P = l → ∀ c ∈ l.head?, P c = false := by
  intro l h c hc
  cases l with
  | nil => cases hc
  | cons d t =>
      simp only [List.head?_cons, Option.mem_def, Option.some.injEq] at hc
      subst hc
      have := List.dropWhile_eq_self_iff.mp h (by simp)
      simpa using this

theorem hexDigits_not_space : ∀ c ∈ SHA256.hexDigits, isPySpace c = false := by decide

theorem hexDigits_no_colon : ':' ∉ SHA256.hexDigits := by decide

theorem hexDigits_no_newline : '\n' ∉ SHA256.hexDigits := by decide

/-- `strip()` leaves a well-formed manifest line untouched. -/
theorem stripChars_manifest_line {p h : Str} (hp : pathSafe p)
    (hh : ∀ c ∈ h, c ∈ SHA256.hexDigits) :
    stripChars (p ++ ':' :: h) = p ++ ':' :: h := by
  rw [stripChars]
  have h1 : (p ++ ':' :: h).dropWhile isPySpace = p ++ ':' :: h := by
    cases p with
    | nil => exact dropWhile_head_false (by intro c hc; simp at hc; subst hc; rfl)
    | cons a q =>
        refine dropWhile_head_false ?_
        intro c hc
        simp only [List.cons_append, List.head?_cons, Option.mem_def,
          Option.some.injEq] at hc
        subst hc
        exact head_false_of_dropWhile_eq hp.2.2 a (by simp)
  rw [h1]
  have h2 : (p ++ ':' :: h).reverse = h.reverse ++ ':' :: p.reverse := by
    simp
  rw [h2]
  have h3 : (h.reverse ++ ':' :: p.reverse).dropWhile isPySpace
      = h.reverse ++ ':' :: p.reverse := by
    cases hr : h.reverse with
    | nil => exact dropWhile_head_false (by intro c hc; simp at hc; subst hc; rfl)
    | cons a t =>
        refine dropWhile_head_false ?_
        intro c hc
        simp only [List.cons_append, List.head?_cons, Option.mem_def,
          Option.some.injEq] at hc
        subst hc
        refine hexDigits_not_space a (hh a ?_)
        have : a ∈ h.reverse := by rw [hr]; simp
        simpa using this
  rw [h3, ← h2, List.reverse_reverse]

/-- A line built from a safe path and a hexdigest parses back to that pair. -/
theorem parseLine_manifest_line {p h : Str} (hp : pathSafe p)
    (hh : ∀ c ∈ h, c ∈ SHA256.hexDigits) :
    parseLine (p ++ ':' :: h) = some (p, h) := by
  rw [parseLine, stripChars_manifest_line hp hh,
    splitOnChar_two hp.1 (fun hc => hexDigits_no_colon (hh ':' hc))]

/-- `parseLine` succeeds exactly on lines whose stripped form has a single
colon, and returns the pieces on each side of it. -/
theorem parseLine_eq_some_iff {l p h : Str} :
    parseLine l = some (p, h) ↔
      stripChars l = p ++ ':' :: h ∧ ':' ∉ p ∧ ':' ∉ h := by
  rw [← @splitOnChar_eq_pair_iff ':' (stripChars l) p h, parseLine]
  cases hr : splitOnChar ':' (stripChars l) with
  | nil => exact absurd hr (splitOnChar_ne_nil _ _)
  | cons x xs =>
      cases xs with
      | nil => simp
      | cons y ys =>
          cases ys with
          | nil => simp [and_comm]
          | cons z zs => simp

/-! ## `fileLines`, `dictInsert`, `zipLookup` -/

theorem splitOnChar_newline_flatten {lines : List Str} (h : ∀ l ∈ lines, '\n' ∉ l) :
    splitOnChar '\n' ((lines.map (· ++ ['\n'])).flatten) = lines ++ [[]] := by
  induction lines with
  | nil => rfl
  | cons l ls ih =>
      have hl : '\n' ∉ l := h l (by simp)
      have hrest := ih (fun x hx => h x (by simp [hx]))
      rw [List.map_cons, List.flatten_cons, List.append_assoc, List.singleton_append]
      rw [splitOnChar_append_no_sep hl (splitOnChar_sep_cons '\n' _)]
      rw [hrest]
      simp

/-- The lines read back from a file whose text is newline-terminated lines. -/
theorem fileLines_flatten {lines : List Str} (h : ∀ l ∈ lines, '\n' ∉ l) :
    fileLines ((lines.map (· ++ ['\n'])).flatten) = lines := by
  rw [fileLines, splitOnChar_newline_flatten h]
  rw [List.getLast?_concat]
  simp

theorem mem_dictInsert_of_nodup {k : Str} {v : α} :
    ∀ {l : List (Str × α)}, (l.map Prod.fst).Nodup → ∀ {x : Str × α},
      (x ∈ dictInsert k v l ↔ x = (k, v) ∨ (x ∈ l ∧ x.1 ≠ k)) := by
  intro l
  induction l with
  | nil => intro _ x; simp [dictInsert]
  | cons e rest ih =>
      intro hnd x
      rw [List.map_cons, List.nodup_cons] at hnd
      rw [dictInsert]
      by_cases he : e.1 = k
      · rw [if_pos he]
        constructor
        · intro hx
          rw [List.mem_cons] at hx
          rcases hx with rfl | hx
          · exact Or.inl rfl
          · refine Or.inr ⟨List.mem_cons_of_mem e hx, ?_⟩
            intro hxk
            refine hnd.1 ?_
            have hx1 : x.1 ∈ rest.map Prod.fst := List.mem_map_of_mem Prod.fst hx
            rwa [hxk, ← he] at hx1
        · intro hx
          rcases hx with rfl | ⟨hx, hxk⟩
          · exact List.mem_cons_self _ _
          · rw [List.mem_cons] at hx
            rcases hx with rfl | hx
            · exact absurd he hxk
            · exact List.mem_cons_of_mem _ hx
      · rw [if_neg he]
        constructor
        · intro hx
          rw [List.mem_cons] at hx
          rcases hx with rfl | hx
          · exact Or.inr ⟨List.mem_cons_self _ _, he⟩
          · rcases (ih hnd.2).mp hx with rfl | ⟨hx2, hxk⟩
            · exact Or.inl rfl
            · exact Or.inr ⟨List.mem_cons_of_mem e hx2, hxk⟩
        · intro hx
          rcases hx with rfl | ⟨hx, hxk⟩
          · exact List.mem_cons_of_mem e ((ih hnd.2).mpr (Or.inl rfl))
          · rw [List.mem_cons] at hx
            rcases hx with rfl | hx
            · exact List.mem_cons_self _ _
            · exact List.mem_cons_of_mem e ((ih hnd.2).mpr (Or.inr ⟨hx, hxk⟩))

theorem dictInsert_eq_append {k : Str} {v : α} :
    ∀ {l : List (Str × α)}, k ∉ l.map Prod.fst → dictInsert k v l = l ++ [(k, v)] := by
  intro l
  induction l with
  | nil => intro _; rfl
  | cons e rest ih =>
      intro h
      rw [List.map_cons, List.mem_cons] at h
      push_neg at h
      rw [dictInsert, if_neg (fun he => h.1 he.symm), ih h.2, List.cons_append]

theorem keys_dictInsert (k : Str) (v : α) :
    ∀ l : List (Str × α), (dictInsert k v l).map Prod.fst =
      if k ∈ l.map Prod.fst then l.map Prod.fst else l.map Prod.fst ++ [k] := by
  intro l
  induction l with
  | nil => simp [dictInsert]
  | cons e rest ih =>
      rw [dictInsert]
      by_cases he : e.1 = k
      · rw [if_pos he, if_pos (by rw [List.map_cons, List.mem_cons]; exact Or.inl he.symm)]
        simp [he]
      · rw [if_neg he, List.map_cons, ih, List.map_cons]
        by_cases hk : k ∈ rest.map Prod.fst
        · rw [if_pos hk, if_pos (by rw [List.mem_cons]; exact Or.inr hk)]
        · rw [if_neg hk, if_neg (by
            rw [List.mem_cons]
            push_neg
            exact ⟨fun h => he h.symm, hk⟩), List.cons_append]

theorem nodup_keys_dictInsert {k : Str} {v : α} {l : List (Str × α)}
    (h : (l.map Prod.fst).Nodup) : ((dictInsert k v l).map Prod.fst).Nodup := by
  rw [keys_dictInsert]
  by_cases hk : k ∈ l.map Prod.fst
  · rwa [if_pos hk]
  · rw [if_neg hk, List.nodup_append]
    refine ⟨h, List.nodup_singleton k, ?_⟩
    intro a ha hb
    rw [List.mem_singleton] at hb
    subst hb
    exact hk ha

set_option synthInstance.maxHeartbeats 400000 in
/-- Rebuilding the dict from its own (duplicate-free) item list is the
identity. -/
theorem foldl_dictInsert_eq :
    ∀ (l acc : List (Str × α)), ((acc ++ l).map Prod.fst).Nodup →
      l.foldl (fun a p => dictInsert p.1 p.2 a) acc = acc ++ l := by
  intro l
  induction l with
  | nil => intro acc _; simp
  | cons e rest ih =>
      intro acc hnd
      have hk : e.1 ∉ acc.map Prod.fst := by
        intro hmem
        rw [List.map_append, List.nodup_append] at hnd
        exact hnd.2.2 hmem (by simp)
      rw [List.foldl_cons, @dictInsert_eq_append α e.1 e.2 acc hk]
      have hshape : (acc ++ [(e.1, e.2)]) ++ rest = acc ++ e :: rest := by
        rw [List.append_assoc, List.singleton_append, Prod.mk.eta]
      have hre := ih (acc ++ [(e.1, e.2)]) (by rw [hshape]; exact hnd)
      rw [hre, hshape]

theorem zipLookup_append_single (es : List (Str × List Nat)) (e : Str × List Nat)
    (p : Str) : zipLookup (es ++ [e]) p =
      if e.1 = p then some e.2 else zipLookup es p := by
  rw [zipLookup, List.foldl_append, List.foldl_cons, List.foldl_nil, zipLookup]

/-! ## Manifest round trip -/

/-- Every entry value produced by the digest engine is hex, hence safe in a
manifest line. -/
theorem parseLines_map_manifest :
    ∀ hashes : List (Str × Str),
      (∀ ph ∈ hashes, pathSafe ph.1 ∧ ∀ c ∈ ph.2, c ∈ SHA256.hexDigits) →
      parseLines (hashes.map (fun ph => ph.1 ++ ':' :: ph.2)) = some hashes := by
  intro hashes
  induction hashes with
  | nil => intro _; rfl
  | cons ph rest ih =>
      intro h
      have h1 := h ph (by simp)
      rw [List.map_cons, parseLines, parseLine_manifest_line h1.1 h1.2,
        ih (fun x hx => h x (List.mem_cons_of_mem ph hx))]

theorem manifestText_eq (hashes : List (Str × Str)) :
    manifestText hashes =
      ((hashes.map (fun ph => ph.1 ++ ':' :: ph.2)).map (· ++ ['\n'])).flatten := by
  rw [manifestText, List.map_map]
  congr 1

/-- Reading back the manifest text written for a duplicate-free, line-safe
dict reproduces the dict exactly. -/
theorem parseManifest_manifestText {hashes : List (Str × Str)}
    (hnd : (hashes.map Prod.fst).Nodup)
    (hsafe : ∀ ph ∈ hashes, pathSafe ph.1 ∧ ∀ c ∈ ph.2, c ∈ SHA256.hexDigits) :
    parseManifest (manifestText hashes) = some hashes := by
  have hnl : ∀ l ∈ hashes.map (fun ph => ph.1 ++ ':' :: ph.2), '\n' ∉ l := by
    intro l hl
    rw [List.mem_map] at hl
    obtain ⟨ph, hph, rfl⟩ := hl
    intro hmem
    rw [List.mem_append, List.mem_cons] at hmem
    rcases hmem with hmem | hmem | hmem
    · exact (hsafe ph hph).1.2.1 hmem
    · cases hmem
    · exact hexDigits_no_newline ((hsafe ph hph).2 '\n' hmem)
  rw [parseManifest, manifestText_eq, fileLines_flatten hnl,
    parseLines_map_manifest hashes hsafe, Option.map_some']
  rw [foldl_dictInsert_eq hashes [] (by simpa using hnd)]
  rw [List.nil_append]

/-! ## Characterizations of `zip_folder` -/

/-- The success flag is the conjunction of per-file success over the walk. -/
theorem foldl_zipStep_success :
    ∀ (files : List SrcFile) (st : List (Str × List Nat) × List (Str × Str) × Bool),
      (files.foldl zipStep st).2.2 = (st.2.2 && files.all fileOk) := by
  intro files
  induction files with
  | nil => intro st; simp
  | cons f rest ih =>
      intro st
      rw [List.foldl_cons, ih, List.all_cons]
      cases hc : f.content with
      | none =>
          simp [zipStep, hc, compute_file_hash, fileOk]
      | some c =>
          by_cases hw : f.writeOk
          · simp [zipStep, hc, compute_file_hash, fileOk, hw]
          · simp [zipStep, hc, compute_file_hash, fileOk, hw]

/-- The container entries are exactly the files whose digest and write both
succeeded, in traversal order. -/
theorem foldl_zipStep_entries :
    ∀ (files : List SrcFile) (st : List (Str × List Nat) × List (Str × Str) × Bool),
      (files.foldl zipStep st).1 = st.1 ++ files.filterMap entryOf := by
  intro files
  induction files with
  | nil => intro st; simp
  | cons f rest ih =>
      intro st
      rw [List.foldl_cons, ih, List.filterMap_cons]
      cases hc : f.content with
      | none => simp [zipStep, hc, compute_file_hash, entryOf]
      | some c =>
          by_cases hw : f.writeOk
          · simp [zipStep, hc, compute_file_hash, entryOf, hw]
          · simp [zipStep, hc, compute_file_hash, entryOf, hw]

/-- The manifest dict collects, in traversal order, one entry per file whose
digest succeeded (including files whose container write then failed),
provided the portable paths involved are duplicate-free. -/
theorem foldl_zipStep_hashes :
    ∀ (files : List SrcFile) (st : List (Str × List Nat) × List (Str × Str) × Bool),
      ((st.2.1 ++ files.filterMap hashOf).map Prod.fst).Nodup →
      (files.foldl zipStep st).2.1 = st.2.1 ++ files.filterMap hashOf := by
  intro files
  induction files with
  | nil => intro st _; simp
  | cons f rest ih =>
      intro st hnd
      rw [List.foldl_cons, List.filterMap_cons]
      cases hc : f.content with
      | none =>
          have hof : hashOf f = none := by simp [hashOf, hc]
          have hst : zipStep st f = (st.1, st.2.1, false) := by
            simp [zipStep, hc, compute_file_hash]
          rw [hst, hof]
          refine ih (st.1, st.2.1, false) ?_
          rw [List.filterMap_cons, hof] at hnd
          simpa using hnd
      | some c =>
          have hof : hashOf f = some (normalize_path f.relPath, SHA256.sha256hex c) := by
            simp [hashOf, hc]
          rw [List.filterMap_cons, hof] at hnd
          have hkey : normalize_path f.relPath ∉ st.2.1.map Prod.fst := by
            intro hmem
            rw [List.map_append, List.nodup_append] at hnd
            exact hnd.2.2 hmem (by simp)
          have hins : dictInsert (normalize_path f.relPath) (SHA256.sha256hex c) st.2.1
              = st.2.1 ++ [(normalize_path f.relPath, SHA256.sha256hex c)] :=
            dictInsert_eq_append hkey
          have hst : (zipStep st f).2.1
              = st.2.1 ++ [(normalize_path f.relPath, SHA256.sha256hex c)] := by
            by_cases hw : f.writeOk
            · simp [zipStep, hc, compute_file_hash_default, hins, hw]
            · simp [zipStep, hc, compute_file_hash_default, hins, hw]
          have hnd2 : (((zipStep st f).2.1 ++ rest.filterMap hashOf).map Prod.fst).Nodup := by
            rw [hst, List.append_assoc, List.singleton_append]
            exact hnd
          rw [ih (zipStep st f) hnd2, hst, hof, List.append_assoc, List.singleton_append]

theorem zip_folder_success (files : List SrcFile) :
    (zip_folder files).success = files.all fileOk := by
  rw [zip_folder]
  simpa using foldl_zipStep_success files ([], [], true)

theorem zip_folder_entries (files : List SrcFile) :
    (zip_folder files).entries = files.filterMap entryOf := by
  rw [zip_folder]
  simpa using foldl_zipStep_entries files ([], [], true)

/-- The keys the manifest dict would receive are a sublist of the files'
normalized paths. -/
theorem hashOf_keys_sublist (files : List SrcFile) :
    List.Sublist ((files.filterMap hashOf).map Prod.fst)
      (files.map (fun f => normalize_path f.relPath)) := by
  induction files with
  | nil => simp
  | cons f rest ih =>
      rw [List.filterMap_cons, List.map_cons]
      cases hc : f.content with
      | none =>
          rw [hashOf, hc]
          exact List.Sublist.cons _ ih
      | some c =>
          rw [hashOf, hc]
          exact List.Sublist.cons₂ _ ih

theorem zip_folder_hashes (files : List SrcFile)
    (hnd : (files.map (fun f => normalize_path f.relPath)).Nodup) :
    (zip_folder files).file_hashes = files.filterMap hashOf := by
  rw [zip_folder]
  have h := foldl_zipStep_hashes files ([], [], true)
    (by simpa using hnd.sublist (hashOf_keys_sublist files))
  simpa using h

theorem zip_folder_hashLog (files : List SrcFile) :
    (zip_folder files).hashLog = manifestText (zip_folder files).file_hashes := rfl

/-- The verification invariant carried through the archiving fold: the
manifest dict has duplicate-free, line-safe keys, and every recorded digest
is the digest of the bytes the container stores (last occurrence) under
that name. -/
theorem foldl_zipStep_invariant :
    ∀ (files : List SrcFile) (st : List (Str × List Nat) × List (Str × Str) × Bool),
      files.all fileOk = true →
      (∀ f ∈ files, pathSafe (normalize_path f.relPath)) →
      ((st.2.1.map Prod.fst).Nodup ∧
        ∀ ph ∈ st.2.1, pathSafe ph.1 ∧ ∃ c, zipLookup st.1 ph.1 = some c ∧
          compute_file_hash (some c) CHUNK_SIZE = some ph.2) →
      ((files.foldl zipStep st).2.1.map Prod.fst).Nodup ∧
        ∀ ph ∈ (files.foldl zipStep st).2.1, pathSafe ph.1 ∧ ∃ c,
          zipLookup (files.foldl zipStep st).1 ph.1 = some c ∧
          compute_file_hash (some c) CHUNK_SIZE = some ph.2 := by
  intro files
  induction files with
  | nil => intro st _ _ hinv; simpa using hinv
  | cons f rest ih =>
      intro st hall hsafe hinv
      rw [List.all_cons, Bool.and_eq_true] at hall
      rw [fileOk, Bool.and_eq_true, Option.isSome_iff_exists] at hall
      obtain ⟨⟨⟨c, hc⟩, hw⟩, hrest⟩ := hall
      have hzp := hsafe f (by simp)
      have hstep : zipStep st f =
          (st.1 ++ [(normalize_path f.relPath, c)],
            dictInsert (normalize_path f.relPath) (SHA256.sha256hex c) st.2.1,
            st.2.2) := by
        simp [zipStep, hc, compute_file_hash_default, hw]
      rw [List.foldl_cons, hstep]
      refine ih _ hrest (fun g hg => hsafe g (List.mem_cons_of_mem f hg)) ?_
      refine ⟨nodup_keys_dictInsert hinv.1, ?_⟩
      intro ph hph
      rcases (mem_dictInsert_of_nodup hinv.1).mp hph with rfl | ⟨hold, hne⟩
      · refine ⟨hzp, c, ?_, compute_file_hash_default c⟩
        rw [zipLookup_append_single]
        simp
      · obtain ⟨hs, cc, hcc, hh⟩ := hinv.2 ph hold
        refine ⟨hs, cc, ?_, hh⟩
        rw [zipLookup_append_single]
        rw [if_neg (fun he => hne he.symm)]
        exact hcc

/-! ## Inversion lemmas for per-file contributions -/

theorem entryOf_eq_some {f : SrcFile} {e : Str × List Nat} (h : entryOf f = some e) :
    e.1 = normalize_path f.relPath ∧ f.content = some e.2 ∧ f.writeOk = true := by
  rw [entryOf] at h
  cases hc : f.content with
  | none => rw [hc] at h; cases h
  | some c =>
      rw [hc] at h
      by_cases hw : f.writeOk
      · rw [Option.some_bind, if_pos hw] at h
        cases h
        exact ⟨rfl, rfl, hw⟩
      · rw [Option.some_bind, if_neg hw] at h
        cases h

theorem hashOf_eq_some {f : SrcFile} {ph : Str × Str} (h : hashOf f = some ph) :
    ph.1 = normalize_path f.relPath ∧
      ∃ c, f.content = some c ∧ ph.2 = SHA256.sha256hex c := by
  rw [hashOf] at h
  cases hc : f.content with
  | none => rw [hc] at h; cases h
  | some c =>
      rw [hc, Option.map_some'] at h
      cases h
      exact ⟨rfl, c, rfl, rfl⟩

/-- With every digest computable, the manifest gets one entry per file in
order. -/
theorem filterMap_hashOf_of_all_some :
    ∀ files : List SrcFile, (∀ f ∈ files, f.content.isSome = true) →
      (files.filterMap hashOf).map Prod.fst
          = files.map (fun f => normalize_path f.relPath) ∧
        (files.filterMap hashOf).length = files.length := by
  intro files
  induction files with
  | nil => intro _; exact ⟨rfl, rfl⟩
  | cons f rest ih =>
      intro h
      have hf := h f (by simp)
      rw [Option.isSome_iff_exists] at hf
      obtain ⟨c, hc⟩ := hf
      have hof : hashOf f = some (normalize_path f.relPath, SHA256.sha256hex c) := by
        simp [hashOf, hc]
      obtain ⟨ih1, ih2⟩ := ih (fun g hg => h g (List.mem_cons_of_mem f hg))
      rw [List.filterMap_cons, hof]
      constructor
      · rw [List.map_cons, List.map_cons, ih1]
      · rw [List.length_cons, List.length_cons, ih2]

theorem list_all_congr {α : Type} (l : List α) (p q : α → Bool)
    (h : ∀ x ∈ l, p x = q x) : l.all p = l.all q := by
  induction l with
  | nil => rfl
  | cons x xs ih =>
      rw [List.all_cons, List.all_cons, h x (by simp),
        ih (fun y hy => h y (List.mem_cons_of_mem x hy))]

/-! ## Claims -/

/-- C3: `verify_integrity` returns `True` only if the manifest parses and,
for every (path, digest) pair it lists, the path resolves in the container,
the stored bytes re-hash successfully, and the recomputed digest equals the
recorded one. -/
theorem verify_integrity_only_if (entries : List (Str × List Nat)) (text : Str)
    (h : verify_integrity entries text = true) :
    ∃ m, parseManifest text = some m ∧
      ∀ ph ∈ m, ∃ c, zipLookup entries ph.1 = some c ∧
        compute_file_hash (some c) CHUNK_SIZE = some (SHA256.sha256hex c) ∧
        SHA256.sha256hex c = ph.2 := by
  rw [verify_integrity] at h
  cases hp : parseManifest text with
  | none => rw [hp] at h; cases h
  | some m =>
      rw [hp] at h
      refine ⟨m, rfl, ?_⟩
      rw [List.all_eq_true] at h
      intro ph hph
      have hb := h ph hph
      cases hl : zipLookup entries ph.1 with
      | none => simp only [hl] at hb; cases hb
      | some c =>
          refine ⟨c, rfl, compute_file_hash_default c, ?_⟩
          simp only [hl, compute_file_hash_default] at hb
          simpa using hb

/-- Witness for C3 at a concrete input (the empty container and the empty
manifest file verify successfully, so the conclusion holds there). -/
theorem verify_integrity_only_if_witness :
    ∃ m, parseManifest ([] : Str) = some m ∧
      ∀ ph ∈ m, ∃ c, zipLookup ([] : List (Str × List Nat)) ph.1 = some c ∧
        compute_file_hash (some c) CHUNK_SIZE = some (SHA256.sha256hex c) ∧
        SHA256.sha256hex c = ph.2 :=
  verify_integrity_only_if [] [] (by decide)

/-- C5: for a readable file and any chunk size of at least one byte,
`compute_file_hash` returns the SHA-256 hexdigest of the entire content —
independent of the chunk size, and in particular equal to a single-pass
read (a chunk size larger than the file) — and that digest is 64 lowercase
hex characters. -/
theorem compute_file_hash_spec (content : List Nat) (chunkSize : Nat)
    (h : 1 ≤ chunkSize) :
    compute_file_hash (some content) chunkSize = some (SHA256.sha256hex content) ∧
    compute_file_hash (some content) chunkSize
      = compute_file_hash (some content) (content.length + 1) ∧
    (SHA256.sha256hex content).length = 64 ∧
    ∀ c ∈ SHA256.sha256hex content, c ∈ SHA256.hexDigits := by
  refine ⟨compute_file_hash_some (by omega) content, ?_,
    SHA256.length_sha256hex content, fun c hc => SHA256.sha256hex_chars c hc⟩
  rw [compute_file_hash_some (by omega) content,
    compute_file_hash_some (by omega) content]

/-- Witness for C5 at a two-byte file and chunk size 1. -/
theorem compute_file_hash_spec_witness :
    1 ≤ 1 ∧
    (compute_file_hash (some [104, 105]) 1 = some (SHA256.sha256hex [104, 105]) ∧
    compute_file_hash (some [104, 105]) 1
      = compute_file_hash (some [104, 105]) ([104, 105].length + 1) ∧
    (SHA256.sha256hex [104, 105]).length = 64 ∧
    ∀ c ∈ SHA256.sha256hex [104, 105], c ∈ SHA256.hexDigits) :=
  ⟨by decide, compute_file_hash_spec [104, 105] 1 (by decide)⟩

/-- C7: the verification verdict depends only on how the container resolves
the names listed in the manifest; two containers that agree on every listed
name verify identically, so unlisted entries are never checked. -/
theorem verify_integrity_depends_only_on_listed (text : Str)
    (e1 e2 : List (Str × List Nat))
    (h : ∀ m, parseManifest text = some m →
      ∀ ph ∈ m, zipLookup e1 ph.1 = zipLookup e2 ph.1) :
    verify_integrity e1 text = verify_integrity e2 text := by
  rw [verify_integrity, verify_integrity]
  cases hp : parseManifest text with
  | none => rfl
  | some m =>
      refine list_all_congr m _ _ ?_
      intro ph hph
      rw [h m hp ph hph]

/-- Witness for C7: a container with an extra unlisted entry `z` verifies
the same as one without it. -/
theorem verify_integrity_depends_only_on_listed_witness :
    verify_integrity [("a".data, [1]), ("z".data, [9])] "a:ab\n".data
      = verify_integrity [("a".data, [1])] "a:ab\n".data :=
  verify_integrity_depends_only_on_listed _ _ _ (by
    intro m hm ph hph
    have hpm : parseManifest "a:ab\n".data = some [("a".data, "ab".data)] := by decide
    rw [hpm] at hm
    cases hm
    rw [List.mem_singleton] at hph
    subst hph
    decide)

/-- C8: `normalize_path` preserves length, maps each character to `/` when
it is a backslash and to itself otherwise (no other transformation), and in
particular sends both `a\b\c.txt` and `a/b/c.txt` to `a/b/c.txt`. -/
theorem normalize_path_spec (p : Str) (i : Nat) :
    (normalize_path p).length = p.length ∧
    (normalize_path p)[i]? = p[i]?.map (fun c => if c = '\\' then '/' else c) ∧
    normalize_path "a\\b\\c.txt".data = "a/b/c.txt".data ∧
    normalize_path "a/b/c.txt".data = "a/b/c.txt".data := by
  refine ⟨?_, ?_, by decide, by decide⟩
  · rw [normalize_path, List.length_map]
  · rw [normalize_path, List.getElem?_map]

/-- C9: an absent or non-directory source makes `main` exit non-zero before
any archiving work, with neither the container nor the manifest created. -/
theorem mainProgram_invalid_source (sourceExists sourceIsDir : Bool)
    (files : List SrcFile) (verifyFlag : Bool)
    (h : sourceExists = false ∨ sourceIsDir = false) :
    (mainProgram sourceExists sourceIsDir files verifyFlag).exitCode ≠ 0 ∧
    (mainProgram sourceExists sourceIsDir files verifyFlag).containerCreated = false ∧
    (mainProgram sourceExists sourceIsDir files verifyFlag).manifestCreated = false := by
  have hcond : (sourceExists && sourceIsDir) = false := by
    rcases h with rfl | rfl
    · rfl
    · exact Bool.and_false sourceExists
  simp [mainProgram, hcond]

/-- Witness for C9 at a concrete missing source directory. -/
theorem mainProgram_invalid_source_witness :
    (false = false ∨ true = false) ∧
    ((mainProgram false true [] false).exitCode ≠ 0 ∧
    (mainProgram false true [] false).containerCreated = false ∧
    (mainProgram false true [] false).manifestCreated = false) :=
  ⟨Or.inl rfl, mainProgram_invalid_source false true [] false (Or.inl rfl)⟩

set_option maxRecDepth 100000 in
/-- Counterexample to C1 as stated: a file whose name contains a colon
archives with `success = True`, yet verifying the untouched archive and
manifest returns `False`, because the manifest line `a:b.txt:<digest>`
has two colons and aborts the manifest read. -/
theorem zip_folder_verify_colon_counterexample :
    (zip_folder [⟨"a:b.txt".data, some [104], true⟩]).success = true ∧
    verify_integrity (zip_folder [⟨"a:b.txt".data, some [104], true⟩]).entries
      (zip_folder [⟨"a:b.txt".data, some [104], true⟩]).hashLog = false := by
  constructor
  · decide
  · decide

/-- C1 (amended): if every archived file's portable path contains no colon
and no newline and does not start with whitespace, then an archive produced
with `success = True` immediately verifies successfully against its own
untouched container and manifest. -/
theorem zip_folder_verify_integrity_roundtrip (files : List SrcFile)
    (hsafe : ∀ f ∈ files, pathSafe (normalize_path f.relPath))
    (hsucc : (zip_folder files).success = true) :
    verify_integrity (zip_folder files).entries (zip_folder files).hashLog = true := by
  have hall : files.all fileOk = true := by
    rw [zip_folder_success] at hsucc
    exact hsucc
  obtain ⟨hnd, hrest⟩ := foldl_zipStep_invariant files ([], [], true) hall hsafe
    ⟨by simp, fun ph hph => absurd hph (by simp)⟩
  have hsafe2 : ∀ ph ∈ (files.foldl zipStep ([], [], true)).2.1,
      pathSafe ph.1 ∧ ∀ c ∈ ph.2, c ∈ SHA256.hexDigits := by
    intro ph hph
    obtain ⟨hs, c, hlk, hcmp⟩ := hrest ph hph
    refine ⟨hs, ?_⟩
    rw [compute_file_hash_default] at hcmp
    have he : SHA256.sha256hex c = ph.2 := Option.some.inj hcmp
    rw [← he]
    exact fun ch hch => SHA256.sha256hex_chars ch hch
  show verify_integrity (files.foldl zipStep ([], [], true)).1
      (manifestText (files.foldl zipStep ([], [], true)).2.1) = true
  rw [verify_integrity, parseManifest_manifestText hnd hsafe2]
  apply List.all_eq_true.mpr
  intro ph hph
  obtain ⟨hs, c, hlk, hcmp⟩ := hrest ph hph
  simp only [hlk, hcmp]
  simp

/-- Witness for C1 (amended) on a two-file source tree. -/
theorem zip_folder_verify_integrity_roundtrip_witness :
    (∀ f ∈ [(⟨"a.txt".data, some [104], true⟩ : SrcFile),
            ⟨"sub\\b.txt".data, some [1, 2], true⟩],
        pathSafe (normalize_path f.relPath)) ∧
    (zip_folder [(⟨"a.txt".data, some [104], true⟩ : SrcFile),
        ⟨"sub\\b.txt".data, some [1, 2], true⟩]).success = true ∧
    verify_integrity
      (zip_folder [(⟨"a.txt".data, some [104], true⟩ : SrcFile),
          ⟨"sub\\b.txt".data, some [1, 2], true⟩]).entries
      (zip_folder [(⟨"a.txt".data, some [104], true⟩ : SrcFile),
          ⟨"sub\\b.txt".data, some [1, 2], true⟩]).hashLog = true :=
  ⟨by decide, by decide,
    zip_folder_verify_integrity_roundtrip _ (by decide) (by decide)⟩

/-- Counterexample to C2 as stated: when `zipf.write` fails for a file
(digest already computed), the file is absent from the container but its
entry REMAINS in the manifest, because the hash dict is populated before
the write. -/
theorem write_error_file_in_manifest_counterexample :
    (zip_folder [⟨"a.txt".data, some [104], false⟩]).success = false ∧
    (zip_folder [⟨"a.txt".data, some [104], false⟩]).entries = [] ∧
    ((zip_folder [⟨"a.txt".data, some [104], false⟩]).file_hashes.map Prod.fst)
      = ["a.txt".data] :=
  ⟨by decide, by decide, by decide⟩

/-- C2 (amended): per-file failures mark the run failed and do not stop the
remaining files; a file whose digest fails is excluded from both container
and manifest, but a file whose container write fails stays in the manifest
(with its digest) while being absent from the container.  Paths are assumed
collision-free after normalization. -/
theorem per_file_failure_isolation (files : List SrcFile)
    (hnd : (files.map (fun f => normalize_path f.relPath)).Nodup) :
    ((∃ f ∈ files, fileOk f = false) → (zip_folder files).success = false) ∧
    ∀ f ∈ files,
      (f.content = none →
        normalize_path f.relPath ∉ (zip_folder files).entries.map Prod.fst ∧
        normalize_path f.relPath ∉ (zip_folder files).file_hashes.map Prod.fst) ∧
      (∀ c, f.content = some c → f.writeOk = false →
        normalize_path f.relPath ∉ (zip_folder files).entries.map Prod.fst ∧
        (normalize_path f.relPath, SHA256.sha256hex c) ∈ (zip_folder files).file_hashes) ∧
      (∀ c, f.content = some c → f.writeOk = true →
        (normalize_path f.relPath, c) ∈ (zip_folder files).entries ∧
        (normalize_path f.relPath, SHA256.sha256hex c) ∈ (zip_folder files).file_hashes) := by
  have hinj := List.inj_on_of_nodup_map hnd
  constructor
  · rintro ⟨f, hf, hff⟩
    rw [zip_folder_success]
    cases hall : files.all fileOk with
    | false => rfl
    | true =>
        have := List.all_eq_true.mp hall f hf
        rw [hff] at this
        cases this
  · intro f hf
    refine ⟨?_, ?_, ?_⟩
    · intro hcn
      constructor
      · rw [zip_folder_entries]
        intro hmem
        rw [List.mem_map] at hmem
        obtain ⟨e, he, heq⟩ := hmem
        rw [List.mem_filterMap] at he
        obtain ⟨g, hg, hge⟩ := he
        obtain ⟨h1, h2, -⟩ := entryOf_eq_some hge
        have hgf : g = f := hinj hg hf (by rw [← h1]; exact heq)
        rw [hgf, hcn] at h2
        cases h2
      · rw [zip_folder_hashes files hnd]
        intro hmem
        rw [List.mem_map] at hmem
        obtain ⟨ph, hph, heq⟩ := hmem
        rw [List.mem_filterMap] at hph
        obtain ⟨g, hg, hge⟩ := hph
        obtain ⟨h1, c, hc, -⟩ := hashOf_eq_some hge
        have hgf : g = f := hinj hg hf (by rw [← h1]; exact heq)
        rw [hgf, hcn] at hc
        cases hc
    · intro c hc hw
      constructor
      · rw [zip_folder_entries]
        intro hmem
        rw [List.mem_map] at hmem
        obtain ⟨e, he, heq⟩ := hmem
        rw [List.mem_filterMap] at he
        obtain ⟨g, hg, hge⟩ := he
        obtain ⟨h1, -, h3⟩ := entryOf_eq_some hge
        have hgf : g = f := hinj hg hf (by rw [← h1]; exact heq)
        rw [hgf, hw] at h3
        cases h3
      · rw [zip_folder_hashes files hnd]
        exact List.mem_filterMap.mpr ⟨f, hf, by simp [hashOf, hc]⟩
    · intro c hc hw
      constructor
      · rw [zip_folder_entries]
        exact List.mem_filterMap.mpr ⟨f, hf, by simp [entryOf, hc, hw]⟩
      · rw [zip_folder_hashes files hnd]
        exact List.mem_filterMap.mpr ⟨f, hf, by simp [hashOf, hc]⟩

/-- Witness for C2 (amended): one unreadable file, one good file. -/
theorem per_file_failure_isolation_witness :
    ((∃ f ∈ [(⟨"a.txt".data, none, true⟩ : SrcFile), ⟨"b.txt".data, some [1], true⟩],
        fileOk f = false) →
      (zip_folder [(⟨"a.txt".data, none, true⟩ : SrcFile),
        ⟨"b.txt".data, some [1], true⟩]).success = false) ∧
    ∀ f ∈ [(⟨"a.txt".data, none, true⟩ : SrcFile), ⟨"b.txt".data, some [1], true⟩],
      (f.content = none →
        normalize_path f.relPath ∉ (zip_folder [(⟨"a.txt".data, none, true⟩ : SrcFile),
          ⟨"b.txt".data, some [1], true⟩]).entries.map Prod.fst ∧
        normalize_path f.relPath ∉ (zip_folder [(⟨"a.txt".data, none, true⟩ : SrcFile),
          ⟨"b.txt".data, some [1], true⟩]).file_hashes.map Prod.fst) ∧
      (∀ c, f.content = some c → f.writeOk = false →
        normalize_path f.relPath ∉ (zip_folder [(⟨"a.txt".data, none, true⟩ : SrcFile),
          ⟨"b.txt".data, some [1], true⟩]).entries.map Prod.fst ∧
        (normalize_path f.relPath, SHA256.sha256hex c)
          ∈ (zip_folder [(⟨"a.txt".data, none, true⟩ : SrcFile),
            ⟨"b.txt".data, some [1], true⟩]).file_hashes) ∧
      (∀ c, f.content = some c → f.writeOk = true →
        (normalize_path f.relPath, c) ∈ (zip_folder [(⟨"a.txt".data, none, true⟩ : SrcFile),
          ⟨"b.txt".data, some [1], true⟩]).entries ∧
        (normalize_path f.relPath, SHA256.sha256hex c)
          ∈ (zip_folder [(⟨"a.txt".data, none, true⟩ : SrcFile),
            ⟨"b.txt".data, some [1], true⟩]).file_hashes) :=
  per_file_failure_isolation _ (by decide)

/-- Counterexample to C6 as stated: two distinct relative paths (`a\b.txt`
and `a/b.txt`, both possible file names on a POSIX filesystem) normalize to
the same portable path, so with no per-file error the two files share one
manifest entry — the path assignment is not injective. -/
theorem normalize_path_collision_counterexample :
    normalize_path "a\\b.txt".data = normalize_path "a/b.txt".data ∧
    "a\\b.txt".data ≠ "a/b.txt".data ∧
    (zip_folder [(⟨"a\\b.txt".data, some [104], true⟩ : SrcFile),
        ⟨"a/b.txt".data, some [105], true⟩]).success = true ∧
    (zip_folder [(⟨"a\\b.txt".data, some [104], true⟩ : SrcFile),
        ⟨"a/b.txt".data, some [105], true⟩]).file_hashes.length = 1 :=
  ⟨by decide, by decide, by decide, by decide⟩

/-- C6 (amended): when every per-file step succeeds AND the normalized
relative paths are pairwise distinct, the manifest keys are exactly the
normalized relative paths of all files in traversal order, with exactly one
entry per file, and the file-to-portable-path assignment is injective. -/
theorem manifest_completeness (files : List SrcFile)
    (hok : files.all fileOk = true)
    (hnd : (files.map (fun f => normalize_path f.relPath)).Nodup) :
    (zip_folder files).file_hashes.map Prod.fst
        = files.map (fun f => normalize_path f.relPath) ∧
    (zip_folder files).file_hashes.length = files.length ∧
    ∀ f ∈ files, ∀ g ∈ files,
      normalize_path f.relPath = normalize_path g.relPath → f = g := by
  have hsome : ∀ f ∈ files, f.content.isSome = true := by
    intro f hf
    have hx := List.all_eq_true.mp hok f hf
    rw [fileOk, Bool.and_eq_true] at hx
    exact hx.1
  obtain ⟨h1, h2⟩ := filterMap_hashOf_of_all_some files hsome
  rw [zip_folder_hashes files hnd]
  exact ⟨h1, h2, fun f hf g hg he => List.inj_on_of_nodup_map hnd hf hg he⟩

/-- Witness for C6 (amended) on a two-file tree. -/
theorem manifest_completeness_witness :
    ([(⟨"a.txt".data, some [104], true⟩ : SrcFile),
        ⟨"sub/b.txt".data, some [1], true⟩].all fileOk = true) ∧
    ((zip_folder [(⟨"a.txt".data, some [104], true⟩ : SrcFile),
        ⟨"sub/b.txt".data, some [1], true⟩]).file_hashes.map Prod.fst
      = [(⟨"a.txt".data, some [104], true⟩ : SrcFile),
          ⟨"sub/b.txt".data, some [1], true⟩].map (fun f => normalize_path f.relPath) ∧
    (zip_folder [(⟨"a.txt".data, some [104], true⟩ : SrcFile),
        ⟨"sub/b.txt".data, some [1], true⟩]).file_hashes.length
      = [(⟨"a.txt".data, some [104], true⟩ : SrcFile),
          ⟨"sub/b.txt".data, some [1], true⟩].length ∧
    ∀ f ∈ [(⟨"a.txt".data, some [104], true⟩ : SrcFile),
        ⟨"sub/b.txt".data, some [1], true⟩],
      ∀ g ∈ [(⟨"a.txt".data, some [104], true⟩ : SrcFile),
          ⟨"sub/b.txt".data, some [1], true⟩],
        normalize_path f.relPath = normalize_path g.relPath → f = g) :=
  ⟨by decide, manifest_completeness _ (by decide) (by decide)⟩

/-- The lines read back from a well-formed manifest text are exactly its
entry lines. -/
theorem fileLines_manifestText {hashes : List (Str × Str)}
    (hsafe : ∀ ph ∈ hashes, pathSafe ph.1 ∧ ∀ c ∈ ph.2, c ∈ SHA256.hexDigits) :
    fileLines (manifestText hashes) = hashes.map (fun ph => ph.1 ++ ':' :: ph.2) := by
  have hnl : ∀ l ∈ hashes.map (fun ph => ph.1 ++ ':' :: ph.2), '\n' ∉ l := by
    intro l hl
    rw [List.mem_map] at hl
    obtain ⟨ph, hph, rfl⟩ := hl
    intro hmem
    rw [List.mem_append, List.mem_cons] at hmem
    rcases hmem with hmem | hmem | hmem
    · exact (hsafe ph hph).1.2.1 hmem
    · cases hmem
    · exact hexDigits_no_newline ((hsafe ph hph).2 '\n' hmem)
  rw [manifestText_eq, fileLines_flatten hnl]

set_option maxRecDepth 100000 in
/-- Counterexample to C10 as stated: a file that was successfully digested
but NOT stored (its container write failed) still gets a manifest line, so
the manifest does not contain one line per digested-and-stored file. -/
theorem manifest_line_for_unstored_file_counterexample :
    (zip_folder [⟨"x.txt".data, some [7], false⟩]).success = false ∧
    (zip_folder [⟨"x.txt".data, some [7], false⟩]).entries = [] ∧
    (fileLines (zip_folder [⟨"x.txt".data, some [7], false⟩]).hashLog).length = 1 :=
  ⟨by decide, by decide, by decide⟩

/-- C10 (amended): whatever the success flag, `zip_folder` writes the
manifest file as the serialization of the returned hash dict, which holds
exactly one entry — hence one manifest line — per file that was
successfully DIGESTED (stored or not), assuming collision-free, line-safe
portable paths. -/
theorem manifest_written_despite_failures (files : List SrcFile)
    (hnd : (files.map (fun f => normalize_path f.relPath)).Nodup)
    (hsafe : ∀ f ∈ files, pathSafe (normalize_path f.relPath)) :
    (zip_folder files).hashLog = manifestText (zip_folder files).file_hashes ∧
    (zip_folder files).file_hashes = files.filterMap hashOf ∧
    (fileLines (zip_folder files).hashLog).length
      = (files.filterMap hashOf).length := by
  have hhash := zip_folder_hashes files hnd
  refine ⟨rfl, hhash, ?_⟩
  have hsafe2 : ∀ ph ∈ (zip_folder files).file_hashes,
      pathSafe ph.1 ∧ ∀ c ∈ ph.2, c ∈ SHA256.hexDigits := by
    intro ph hph
    rw [hhash, List.mem_filterMap] at hph
    obtain ⟨g, hg, hge⟩ := hph
    obtain ⟨h1, c, hc, h2⟩ := hashOf_eq_some hge
    constructor
    · rw [h1]; exact hsafe g hg
    · rw [h2]; exact fun ch hch => SHA256.sha256hex_chars ch hch
  rw [zip_folder_hashLog, fileLines_manifestText hsafe2, List.length_map, hhash]

/-- Witness for C10 (amended): one write-failed file and one good file both
get their manifest line. -/
theorem manifest_written_despite_failures_witness :
    (zip_folder [(⟨"x.txt".data, some [7], false⟩ : SrcFile),
        ⟨"y.txt".data, some [8], true⟩]).hashLog
      = manifestText (zip_folder [(⟨"x.txt".data, some [7], false⟩ : SrcFile),
          ⟨"y.txt".data, some [8], true⟩]).file_hashes ∧
    (zip_folder [(⟨"x.txt".data, some [7], false⟩ : SrcFile),
        ⟨"y.txt".data, some [8], true⟩]).file_hashes
      = [(⟨"x.txt".data, some [7], false⟩ : SrcFile),
          ⟨"y.txt".data, some [8], true⟩].filterMap hashOf ∧
    (fileLines (zip_folder [(⟨"x.txt".data, some [7], false⟩ : SrcFile),
        ⟨"y.txt".data, some [8], true⟩]).hashLog).length
      = ([(⟨"x.txt".data, some [7], false⟩ : SrcFile),
          ⟨"y.txt".data, some [8], true⟩].filterMap hashOf).length :=
  manifest_written_despite_failures _ (by decide) (by decide)

/-- Counterexample to C4 as stated: the line `a:b:c` contains a colon, and
under the claim it would parse to path `a` and digest `b:c`; instead the
reader raises (it splits on EVERY colon), which is fatal for the whole
manifest. -/
theorem parseLine_two_colons_counterexample :
    parseLine "a:b:c".data = none ∧ ':' ∈ "a:b:c".data :=
  ⟨by decide, by decide⟩

/-- C4 (amended): the manifest reader accepts a line exactly when its
stripped form contains a single colon, and then returns the text before it
as the path and the text after it as the digest; a line with zero colons or
with two or more colons is a fatal parse error. -/
theorem manifest_reader_single_colon (l p h : Str) :
    parseLine l = some (p, h) ↔
      stripChars l = p ++ ':' :: h ∧ ':' ∉ p ∧ ':' ∉ h :=
  parseLine_eq_some_iff
